import Mathlib

/-!
Shallow embedding of the filename-sanitization core of the AI File Namer
browser extension (`background.js` and the popup script), together with
theorems checking the natural-language specification against it.

Strings are modelled by Lean `String` / `List Char`; character classes of
the JavaScript regexes are modelled on code points (`Char.toNat`), which is
faithful because every regex involved is ASCII-only.
-/

namespace AIFileNamer

/-- Code points removed by `name.replace(/[`"']/g, "")`: backtick, double
quote, single quote. -/
def isQuoteChar (c : Char) : Bool :=
  c == '`' || c == '"' || c == '\''

/-- ASCII whitespace matched by the JavaScript `\s` class and `trim()`
(space, tab, LF, VT, FF, CR). -/
def isSpaceChar (c : Char) : Bool :=
  c == ' ' || c == '\t' || c == '\n' || c == Char.ofNat 11 || c == Char.ofNat 12 || c == '\r'

/-- The JavaScript `\w` class: `[A-Za-z0-9_]`. -/
def isWordChar (c : Char) : Bool :=
  (decide (97 ≤ c.toNat) && decide (c.toNat ≤ 122)) ||
  (decide (65 ≤ c.toNat) && decide (c.toNat ≤ 90)) ||
  (decide (48 ≤ c.toNat) && decide (c.toNat ≤ 57)) ||
  decide (c.toNat = 95)

/-- Characters kept by `clean.replace(/[^a-z0-9-]/gi, "")`: ASCII letters
of either case, digits, hyphen. -/
def isKeepChar (c : Char) : Bool :=
  (decide (97 ≤ c.toNat) && decide (c.toNat ≤ 122)) ||
  (decide (65 ≤ c.toNat) && decide (c.toNat ≤ 90)) ||
  (decide (48 ≤ c.toNat) && decide (c.toNat ≤ 57)) ||
  c == '-'

/-- Characters of the output alphabet `[a-z0-9-]`. -/
def isOut (c : Char) : Bool :=
  (decide (97 ≤ c.toNat) && decide (c.toNat ≤ 122)) ||
  (decide (48 ≤ c.toNat) && decide (c.toNat ≤ 57)) ||
  c == '-'

def isHyphen (c : Char) : Bool := c == '-'

def isSpaceOrUnderscore (c : Char) : Bool := isSpaceChar c || c == '_'

/-- ASCII lower-casing, the fragment of `toLowerCase()` relevant here
(every string it is applied to in the core is ASCII). -/
def lowerChar (c : Char) : Char :=
  if 65 ≤ c.toNat ∧ c.toNat ≤ 90 then Char.ofNat (c.toNat + 32) else c

def strLower (s : String) : String := ⟨s.data.map lowerChar⟩

/-- `s.startsWith(pre)`. -/
def strStartsWith (s pre : String) : Bool :=
  s.data.take pre.data.length == pre.data

/-- `s.endsWith(suf)`. -/
def strEndsWith (s suf : String) : Bool :=
  s.data.drop (s.data.length - suf.data.length) == suf.data

/-- Drop leading and trailing whitespace: `trim()`. -/
def trimEnds (l : List Char) : List Char :=
  ((l.dropWhile isSpaceChar).reverse.dropWhile isSpaceChar).reverse

/-- `name.replace(/[`"']/g, "")`. -/
def stripQuotes (l : List Char) : List Char :=
  l.filter (fun c => !isQuoteChar c)

/-- Length of the trailing dot-extension matched by `/\.\w{lo,hi}$/`:
the maximal run of word characters at the end must have length in
`[lo, hi]` and be preceded by a literal dot. -/
def extSuffixLen (lo hi : Nat) (l : List Char) : Option Nat :=
  if decide (lo ≤ (l.reverse.takeWhile isWordChar).length)
      && decide ((l.reverse.takeWhile isWordChar).length ≤ hi)
      && ((l.reverse.dropWhile isWordChar).head? == some '.')
  then some (l.reverse.takeWhile isWordChar).length
  else none

/-- `clean.replace(/\.\w{2,4}$/, "")`: drop a trailing dot-extension of
2 to 4 word characters. -/
def dropExtension (l : List Char) : List Char :=
  match extSuffixLen 2 4 l with
  | some run => l.take (l.length - (run + 1))
  | none => l

/-- The group captured by `filename.match(/(\.\w{2,5})$/)`, when the regex
matches. -/
def extMatch (l : List Char) : Option (List Char) :=
  match extSuffixLen 2 5 l with
  | some run => some (l.drop (l.length - (run + 1)))
  | none => none

/-- `replace` of every maximal run of characters satisfying `p` by the
single character `r`; the flag records whether the previous character was
inside such a run. -/
def replaceRuns (p : Char → Bool) (r : Char) : Bool → List Char → List Char
  | _, [] => []
  | inRun, c :: rest =>
    if p c then
      if inRun then replaceRuns p r true rest
      else r :: replaceRuns p r true rest
    else c :: replaceRuns p r false rest

/-- `clean.replace(/[\s_]+/g, "-")`. -/
def hyphenateRuns (l : List Char) : List Char :=
  replaceRuns isSpaceOrUnderscore '-' false l

/-- `clean.replace(/[^a-z0-9-]/gi, "")`. -/
def keepAlnumHyphen (l : List Char) : List Char :=
  l.filter isKeepChar

/-- `clean.replace` of the regex `-{2,}` (runs of 2+ hyphens) by `"-"`. -/
def collapseHyphens (l : List Char) : List Char :=
  replaceRuns isHyphen '-' false l

/-- `clean.replace` of the regex `-+$` (trailing hyphens) by the empty string. -/
def dropTrailingHyphens (l : List Char) : List Char :=
  (l.reverse.dropWhile isHyphen).reverse

/-- `clean.replace` of the regex `^-+|-+$` (leading and trailing hyphen runs) by the empty string. -/
def trimHyphens (l : List Char) : List Char :=
  dropTrailingHyphens (l.dropWhile isHyphen)

/-- `if (clean.length > 60) clean = clean.substring(0, 60)` followed by stripping any trailing hyphens the cut left behind. -/
def truncate60 (l : List Char) : List Char :=
  if 60 < l.length then dropTrailingHyphens (l.take 60) else l

/-- The eight transformation steps of `sanitizeFilename`, in source order,
before the fallback. -/
def sanitizeCore (l : List Char) : List Char :=
  truncate60 (trimHyphens (collapseHyphens
    ((keepAlnumHyphen (hyphenateRuns (dropExtension (trimEnds (stripQuotes l))))).map lowerChar)))

/-- `sanitizeFilename` from background.js: the eight steps, then
`return clean || "unnamed-file"`. -/
def sanitizeFilename (s : String) : String :=
  let clean := sanitizeCore s.data
  if clean.isEmpty then "unnamed-file" else ⟨clean⟩

/-- The own-key restriction of `getExtensionFromMime` from background.js:
the eight rows of the literal object `map`, with `undefined`/unmapped
values defaulting to `".png"`.  This ignores the JavaScript prototype
chain, so it agrees with the source only for mime values that do not name
an `Object.prototype` member; the faithful lookup, prototype chain
included, is `getExtensionFromMimeJs` below, and the two are related by
`getExtensionFromMimeJs_eq_str`.  The callers proved here reach this
function only where the two agree. -/
def getExtensionFromMime (mime : Option String) : String :=
  match mime with
  | none => ".png"
  | some m =>
    if m = "image/jpeg" then ".jpg"
    else if m = "image/png" then ".png"
    else if m = "image/gif" then ".gif"
    else if m = "image/webp" then ".webp"
    else if m = "image/bmp" then ".bmp"
    else if m = "image/svg+xml" then ".svg"
    else if m = "image/x-icon" then ".ico"
    else if m = "image/tiff" then ".tiff"
    else ".png"

/-- `getExtension` from background.js: a trailing `/(\.\w{2,5})$/` suffix
of `filename || ""` lower-cased, otherwise the mime table. -/
def getExtension (filename : Option String) (mime : Option String) : String :=
  match extMatch (filename.getD "").data with
  | some suffix => strLower ⟨suffix⟩
  | none => getExtensionFromMime mime

def IMAGE_EXTENSIONS : List String :=
  [".jpg", ".jpeg", ".png", ".gif", ".webp", ".bmp", ".svg"]

/-- `isImageFile` from background.js. -/
def isImageFile (mime filename : String) : Bool :=
  if !mime.data.isEmpty && strStartsWith mime "image/" then true
  else IMAGE_EXTENSIONS.any (fun ext => strEndsWith (strLower filename) ext)

structure RenameEvent where
  original : String
  renamed : String
  timestamp : Nat
deriving DecidableEq

/-- `logRename` from background.js, with the persisted array passed as
explicit state and `Date.now()` as the `now` argument: `unshift` the new
event, then `if (renameHistory.length > 50) renameHistory.length = 50`. -/
def logRename (original renamed : String) (now : Nat) (hist : List RenameEvent) :
    List RenameEvent :=
  let hist2 : List RenameEvent := ⟨original, renamed, now⟩ :: hist
  if 50 < hist2.length then hist2.take 50 else hist2

/-- Sequential `logRename` calls, oldest call first. -/
def recordAll (calls : List (String × String × Nat)) (hist : List RenameEvent) :
    List RenameEvent :=
  calls.foldl (fun h c => logRename c.1 c.2.1 c.2.2 h) hist

/-- Outcome of one run of the download-interception listener: the filename
suggested to the host (`none` = keep the original) and the rename history
afterwards. -/
structure DownloadOutcome where
  suggested : Option String
  history : List RenameEvent
deriving DecidableEq

/-- `handleDownloadRename` from background.js, with the collaborators made
explicit: `enabled`/`apiKey` are the stored settings, and `aiText` is the
raw text produced by the fetch + Gemini call (`none` covers every failure
path: fetch failure, oversized image, API error, missing candidate text). -/
def handleDownloadRename (enabled : Bool) (apiKey : String) (aiText : Option String)
    (filename mime : String) (now : Nat) (hist : List RenameEvent) : DownloadOutcome :=
  if !enabled || apiKey.data.isEmpty then ⟨none, hist⟩
  else
    match aiText with
    | none => ⟨none, hist⟩
    | some text =>
      let aiName := sanitizeFilename ⟨trimEnds text.data⟩
      let ext := getExtension (some filename) (some mime)
      let newFilename := aiName ++ ext
      ⟨some newFilename, logRename filename newFilename now hist⟩

/-- The `chrome.downloads.onDeterminingFilename` listener from
background.js: non-image downloads are passed through (`suggest()` with no
argument keeps the original filename), image downloads are handed to
`handleDownloadRename`.  `mime` and `filename` are the already-defaulted
`downloadItem.mime || ""` and `downloadItem.filename || ""`. -/
def onDeterminingFilename (mime filename : String) (enabled : Bool) (apiKey : String)
    (aiText : Option String) (now : Nat) (hist : List RenameEvent) : DownloadOutcome :=
  if !isImageFile mime filename then ⟨none, hist⟩
  else handleDownloadRename enabled apiKey aiText filename mime now hist

/-- `timeAgo` from the popup script, with `Date.now()` passed as `now`;
`seconds`, `minutes`, `hours`, `days` of the source are inlined as
`(now - timestamp) / 1000`, `seconds / 60`, `minutes / 60`, `hours / 24`. -/
def timeAgo (now timestamp : Nat) : String :=
  if (now - timestamp) / 1000 < 60 then "Just now"
  else if (now - timestamp) / 1000 / 60 < 60 then
    toString ((now - timestamp) / 1000 / 60) ++ "m ago"
  else if (now - timestamp) / 1000 / 60 / 60 < 24 then
    toString ((now - timestamp) / 1000 / 60 / 60) ++ "h ago"
  else
    toString ((now - timestamp) / 1000 / 60 / 60 / 24) ++ "d ago"

/-! ### Generic list helpers -/

theorem takeWhile_append_of_all {p : Char → Bool} {a : List Char} {x : Char} {b : List Char}
    (ha : ∀ c ∈ a, p c = true) (hx : p x = false) :
    (a ++ x :: b).takeWhile p = a := by
  induction a with
  | nil => simp [List.takeWhile_cons, hx]
  | cons c cs ih =>
    have hc : p c = true := ha c (by simp)
    simp only [List.cons_append, List.takeWhile_cons, hc, if_true]
    rw [ih (fun d hd => ha d (by simp [hd]))]

theorem dropWhile_append_of_all {p : Char → Bool} {a : List Char} {x : Char} {b : List Char}
    (ha : ∀ c ∈ a, p c = true) (hx : p x = false) :
    (a ++ x :: b).dropWhile p = x :: b := by
  induction a with
  | nil => simp [List.dropWhile_cons, hx]
  | cons c cs ih =>
    have hc : p c = true := ha c (by simp)
    simp only [List.cons_append, List.dropWhile_cons, hc, if_true]
    exact ih (fun d hd => ha d (by simp [hd]))

theorem dropWhile_eq_self_of_head {p : Char → Bool} {l : List Char}
    (h : ∀ c, l.head? = some c → p c = false) : l.dropWhile p = l := by
  cases l with
  | nil => rfl
  | cons c rest => simp [List.dropWhile_cons, h c rfl]

theorem filter_eq_self_of_all {p : Char → Bool} {l : List Char}
    (h : ∀ c ∈ l, p c = true) : l.filter p = l :=
  List.filter_eq_self.mpr h

theorem map_eq_self_of_all {f : Char → Char} {l : List Char}
    (h : ∀ c ∈ l, f c = c) : l.map f = l := by
  rw [List.map_congr_left h]
  exact l.map_id

theorem replaceRuns_cons_of_neg {p : Char → Bool} {r d : Char} {rest : List Char}
    (hpd : p d = false) (b : Bool) :
    replaceRuns p r b (d :: rest) = d :: replaceRuns p r false rest := by
  cases b <;> simp [replaceRuns, hpd]

theorem replaceRuns_cons_of_pos_true {p : Char → Bool} {r d : Char} {rest : List Char}
    (hpd : p d = true) :
    replaceRuns p r true (d :: rest) = replaceRuns p r true rest := by
  simp [replaceRuns, hpd]

theorem replaceRuns_cons_of_pos_false {p : Char → Bool} {r d : Char} {rest : List Char}
    (hpd : p d = true) :
    replaceRuns p r false (d :: rest) = r :: replaceRuns p r true rest := by
  simp [replaceRuns, hpd]

theorem replaceRuns_eq_self {p : Char → Bool} {r : Char} {l : List Char}
    (h : ∀ c ∈ l, p c = false) : ∀ b, replaceRuns p r b l = l := by
  induction l with
  | nil => intro b; rfl
  | cons c rest ih =>
    intro b
    rw [replaceRuns_cons_of_neg (h c (by simp)) b,
      ih (fun d hd => h d (by simp [hd])) false]

theorem mem_replaceRuns {p : Char → Bool} {r : Char} {c : Char} :
    ∀ {b : Bool} {l : List Char}, c ∈ replaceRuns p r b l → c = r ∨ c ∈ l := by
  intro b l
  induction l generalizing b with
  | nil => intro h; simp [replaceRuns] at h
  | cons d rest ih =>
    intro h
    cases hpd : p d with
    | false =>
      rw [replaceRuns_cons_of_neg hpd b] at h
      rcases List.mem_cons.mp h with h1 | h1
      · exact Or.inr (List.mem_cons.mpr (Or.inl h1))
      · rcases ih h1 with h2 | h2
        · exact Or.inl h2
        · exact Or.inr (List.mem_cons.mpr (Or.inr h2))
    | true =>
      cases b with
      | true =>
        rw [replaceRuns_cons_of_pos_true hpd] at h
        rcases ih h with h2 | h2
        · exact Or.inl h2
        · exact Or.inr (List.mem_cons.mpr (Or.inr h2))
      | false =>
        rw [replaceRuns_cons_of_pos_false hpd] at h
        rcases List.mem_cons.mp h with h1 | h1
        · exact Or.inl h1
        · rcases ih h1 with h2 | h2
          · exact Or.inl h2
          · exact Or.inr (List.mem_cons.mpr (Or.inr h2))

/-! ### The trailing dot-extension regex -/

theorem extSuffixLen_append_dot (lo hi : Nat) (stem t : List Char)
    (hw : ∀ c ∈ t, isWordChar c = true) :
    extSuffixLen lo hi (stem ++ '.' :: t) =
      if lo ≤ t.length ∧ t.length ≤ hi then some t.length else none := by
  have hdot : isWordChar '.' = false := by decide
  have hrev : (stem ++ '.' :: t).reverse = t.reverse ++ '.' :: stem.reverse := by
    simp
  have hwrev : ∀ c ∈ t.reverse, isWordChar c = true :=
    fun c hc => hw c (List.mem_reverse.mp hc)
  unfold extSuffixLen
  rw [hrev, takeWhile_append_of_all hwrev hdot, dropWhile_append_of_all hwrev hdot,
    List.length_reverse]
  simp only [List.head?_cons, beq_self_eq_true, Bool.and_true, Bool.and_eq_true,
    decide_eq_true_eq]

theorem extMatch_append_dot (stem t : List Char)
    (h2 : 2 ≤ t.length) (h5 : t.length ≤ 5) (hw : ∀ c ∈ t, isWordChar c = true) :
    extMatch (stem ++ '.' :: t) = some ('.' :: t) := by
  unfold extMatch
  rw [extSuffixLen_append_dot 2 5 stem t hw, if_pos ⟨h2, h5⟩]
  show some ((stem ++ '.' :: t).drop ((stem ++ '.' :: t).length - (t.length + 1))) =
    some ('.' :: t)
  have hlen : (stem ++ '.' :: t).length - (t.length + 1) = stem.length := by
    simp
  rw [hlen, List.drop_left]

/-- Claim C3: for every filename that ends with a dot followed by 2 to 5 word
characters and every mime value (present, absent, mapped or unmapped),
`getExtension` returns that trailing suffix lower-cased, ignoring mime
entirely. -/
theorem getExtension_prefers_filename_suffix (stem t : String) (mime : Option String)
    (h2 : 2 ≤ t.data.length) (h5 : t.data.length ≤ 5)
    (hw : ∀ c ∈ t.data, isWordChar c = true) :
    getExtension (some (stem ++ "." ++ t)) mime = strLower ("." ++ t) := by
  have hdata : (stem ++ "." ++ t).data = stem.data ++ '.' :: t.data := by
    simp [String.data_append]
  have hsuffix : ("." ++ t : String).data = '.' :: t.data := by
    simp [String.data_append]
  unfold getExtension
  simp only [Option.getD_some, hdata, extMatch_append_dot stem.data t.data h2 h5 hw]
  unfold strLower
  rw [hsuffix]

/-- Claim C3 witness: the spec's own example, the filename suffix wins over
the mime type. -/
theorem getExtension_prefers_filename_suffix_witness :
    getExtension (some "photo.JPG") (some "image/png") = ".jpg" := by
  have h := getExtension_prefers_filename_suffix "photo" "JPG" (some "image/png")
    (by decide) (by decide) (by decide)
  exact h.trans (by decide)

/-- Claim C5: `sanitizeFilename` applies its eight transformation steps in the
specified order (strip quotes and trim, drop a trailing 2-to-4-word-character
dot-extension, hyphenate whitespace and underscore runs, drop characters
outside `[a-zA-Z0-9-]`, lower-case, collapse hyphen runs, trim edge hyphens,
truncate), then falls back to `"unnamed-file"` on empty; in particular the
spec's example evaluates to `"golden-retriever-park"`. -/
theorem sanitize_steps_in_order :
    (∀ s : String, sanitizeFilename s =
      if (truncate60 (trimHyphens (collapseHyphens ((keepAlnumHyphen (hyphenateRuns
            (dropExtension (trimEnds (stripQuotes s.data))))).map lowerChar)))).isEmpty
      then "unnamed-file"
      else ⟨truncate60 (trimHyphens (collapseHyphens ((keepAlnumHyphen (hyphenateRuns
            (dropExtension (trimEnds (stripQuotes s.data))))).map lowerChar)))⟩) ∧
    sanitizeFilename "\"Golden_Retriever Park!!\".png" = "golden-retriever-park" :=
  ⟨fun _ => rfl, by decide⟩

/-- Claim C6: step 8 truncates the intermediate result to 60 characters and
then strips any trailing hyphens left by the truncation; in particular
`sanitizeFilename` of 100 repeated `"a"` characters is exactly 60 `"a"`
characters, so it has length 60 and does not end with a hyphen. -/
theorem sanitize_truncation :
    (∀ l : List Char, truncate60 l =
      if 60 < l.length then dropTrailingHyphens (l.take 60) else l) ∧
    (sanitizeFilename ⟨List.replicate 100 'a'⟩).data.length = 60 ∧
    (sanitizeFilename ⟨List.replicate 100 'a'⟩).data.getLast? = some 'a' ∧
    sanitizeFilename ⟨List.replicate 100 'a'⟩ = ⟨List.replicate 60 'a'⟩ :=
  ⟨fun _ => rfl, by decide, by decide, by decide⟩

/-- Claim C8 counterexample: the code renders an age under 60 seconds as
`"Just now"` with a capital J, not as the literal `"just now"` stated in the
claim. -/
theorem timeAgo_not_lowercase_just_now : ¬ (timeAgo 30000 0 = "just now") := by
  decide

/-- Claim C8 (amended: the sub-minute literal is `"Just now"`, capitalized):
the human-relative age is a pure function of `timestamp` and the current
time, computed by integer-floor division: `"Just now"` under 60 seconds,
`"Nm ago"` with `N = seconds / 60` under 60 minutes, `"Nh ago"` with
`N = minutes / 60` under 24 hours, otherwise `"Nd ago"` with
`N = hours / 24`. -/
theorem timeAgo_floor_buckets (now timestamp : Nat) :
    ((now - timestamp) / 1000 < 60 → timeAgo now timestamp = "Just now") ∧
    (60 ≤ (now - timestamp) / 1000 → (now - timestamp) / 1000 < 3600 →
      timeAgo now timestamp = toString ((now - timestamp) / 1000 / 60) ++ "m ago") ∧
    (3600 ≤ (now - timestamp) / 1000 → (now - timestamp) / 1000 < 86400 →
      timeAgo now timestamp = toString ((now - timestamp) / 1000 / 60 / 60) ++ "h ago") ∧
    (86400 ≤ (now - timestamp) / 1000 →
      timeAgo now timestamp = toString ((now - timestamp) / 1000 / 60 / 60 / 24) ++ "d ago") := by
  refine ⟨fun h1 => ?_, fun h1 h2 => ?_, fun h1 h2 => ?_, fun h1 => ?_⟩ <;>
    · unfold timeAgo
      split_ifs <;> first | rfl | omega

/-- Claim C8 witness: one concrete input in each bucket. -/
theorem timeAgo_floor_buckets_witness :
    timeAgo 30000 0 = "Just now" ∧ timeAgo 150000 0 = "2m ago" ∧
    timeAgo 7200000 0 = "2h ago" ∧ timeAgo 259200000 0 = "3d ago" :=
  ⟨(timeAgo_floor_buckets 30000 0).1 (by decide),
   ((timeAgo_floor_buckets 150000 0).2.1 (by decide) (by decide)).trans (by decide),
   ((timeAgo_floor_buckets 7200000 0).2.2.1 (by decide) (by decide)).trans (by decide),
   ((timeAgo_floor_buckets 259200000 0).2.2.2 (by decide)).trans (by decide)⟩

/-! ### Extension resolution: the mime table (C4) -/

/-- The spec-side predicate of C3/C4: the string ends with a dot followed by
2 to 5 word characters. -/
def HasTrailingDotExt (s : String) : Prop :=
  ∃ stem t : String, s = stem ++ "." ++ t ∧ 2 ≤ t.data.length ∧ t.data.length ≤ 5 ∧
    ∀ c ∈ t.data, isWordChar c = true

theorem str_eq_of_data {s u : String} (h : s.data = u.data) : s = u :=
  congrArg String.mk h

theorem extSuffixLen_eq_some {lo hi : Nat} {l : List Char} {run : Nat}
    (h : extSuffixLen lo hi l = some run) :
    run = (l.reverse.takeWhile isWordChar).length ∧ lo ≤ run ∧ run ≤ hi ∧
      (l.reverse.dropWhile isWordChar).head? = some '.' := by
  unfold extSuffixLen at h
  split_ifs at h with hcond
  simp only [Bool.and_eq_true, decide_eq_true_eq, beq_iff_eq] at hcond
  rw [Option.some_inj] at h
  exact ⟨h.symm, h ▸ hcond.1.1, h ▸ hcond.1.2, hcond.2⟩

theorem extMatch_some_split {l suf : List Char} (h : extMatch l = some suf) :
    ∃ stem t : List Char, l = stem ++ '.' :: t ∧ suf = '.' :: t ∧ 2 ≤ t.length ∧
      t.length ≤ 5 ∧ ∀ c ∈ t, isWordChar c = true := by
  cases he : extSuffixLen 2 5 l with
  | none =>
    have hnone : extMatch l = none := by unfold extMatch; rw [he]
    rw [hnone] at h
    exact absurd h (by simp)
  | some run =>
    obtain ⟨hrun, h2, h5, hdot⟩ := extSuffixLen_eq_some he
    cases hd : l.reverse.dropWhile isWordChar with
    | nil => rw [hd] at hdot; exact absurd hdot (by simp)
    | cons c rest =>
      rw [hd] at hdot
      simp only [List.head?_cons, Option.some_inj] at hdot
      subst hdot
      have hsplit : l.reverse.takeWhile isWordChar ++ '.' :: rest = l.reverse := by
        rw [← hd]; apply List.takeWhile_append_dropWhile
      have hl : l = rest.reverse ++ '.' :: (l.reverse.takeWhile isWordChar).reverse := by
        have := congrArg List.reverse hsplit
        simpa using this.symm
      have hword : ∀ c ∈ (l.reverse.takeWhile isWordChar).reverse, isWordChar c = true :=
        fun c hc => List.mem_takeWhile_imp (List.mem_reverse.mp hc)
      have hlen : ((l.reverse.takeWhile isWordChar).reverse).length = run := by
        rw [List.length_reverse, hrun]
      refine ⟨rest.reverse, (l.reverse.takeWhile isWordChar).reverse, hl, ?_, ?_, ?_, hword⟩
      · have hm := extMatch_append_dot rest.reverse (l.reverse.takeWhile isWordChar).reverse
          (by rw [hlen]; exact h2) (by rw [hlen]; exact h5) hword
        rw [← hl] at hm
        rw [h] at hm
        exact Option.some_inj.mp hm
      · rw [hlen]; exact h2
      · rw [hlen]; exact h5

theorem hasTrailingDotExt_of_extMatch {s : String} {suf : List Char}
    (h : extMatch s.data = some suf) : HasTrailingDotExt s := by
  obtain ⟨stem, t, hl, _, h2, h5, hw⟩ := extMatch_some_split h
  refine ⟨⟨stem⟩, ⟨t⟩, ?_, h2, h5, hw⟩
  apply str_eq_of_data
  rw [hl]
  simp [String.data_append]

theorem extMatch_eq_none_of_not_hasExt {s : String} (h : ¬ HasTrailingDotExt s) :
    extMatch s.data = none := by
  cases hm : extMatch s.data with
  | none => rfl
  | some suf => exact absurd (hasTrailingDotExt_of_extMatch hm) h

theorem extMatch_ne_none_of_hasExt {s : String} (h : HasTrailingDotExt s) :
    extMatch s.data ≠ none := by
  obtain ⟨stem, t, rfl, h2, h5, hw⟩ := h
  have hdata : (stem ++ "." ++ t).data = stem.data ++ '.' :: t.data := by
    simp [String.data_append]
  rw [hdata, extMatch_append_dot stem.data t.data h2 h5 hw]
  simp

/-- A value read off the literal object `map` by `map[mime]`: an own entry
(one of the eight strings), a member inherited from `Object.prototype`
(a function, or `Object.prototype` itself for `"__proto__"` — an object,
truthy but not a string), or `undefined`. -/
inductive JsLookup where
  | str : String → JsLookup
  | protoMember : String → JsLookup
  | undefined : JsLookup
deriving DecidableEq

/-- The property names a plain JavaScript object literal inherits from
`Object.prototype`, all of which read back as truthy non-string values. -/
def OBJECT_PROTOTYPE_MEMBERS : List String :=
  ["constructor", "hasOwnProperty", "isPrototypeOf", "propertyIsEnumerable",
   "toLocaleString", "toString", "valueOf", "__proto__",
   "__defineGetter__", "__defineSetter__", "__lookupGetter__", "__lookupSetter__"]

/-- `map[mime]` from `getExtensionFromMime`, prototype chain included: an
own key yields its string, an `Object.prototype` member name yields the
inherited member, anything else (including `undefined` as key) yields
`undefined`. -/
def mimeMapGet (mime : Option String) : JsLookup :=
  match mime with
  | none => .undefined
  | some m =>
    if m = "image/jpeg" then .str ".jpg"
    else if m = "image/png" then .str ".png"
    else if m = "image/gif" then .str ".gif"
    else if m = "image/webp" then .str ".webp"
    else if m = "image/bmp" then .str ".bmp"
    else if m = "image/svg+xml" then .str ".svg"
    else if m = "image/x-icon" then .str ".ico"
    else if m = "image/tiff" then .str ".tiff"
    else if m ∈ OBJECT_PROTOTYPE_MEMBERS then .protoMember m
    else .undefined

/-- `getExtensionFromMime` from background.js, faithfully:
`return map[mime] || ".png"` — `undefined` is the only falsy value the
lookup can produce, so an inherited `Object.prototype` member is returned
as-is instead of `".png"`. -/
def getExtensionFromMimeJs (mime : Option String) : JsLookup :=
  match mimeMapGet mime with
  | .undefined => .str ".png"
  | v => v

/-- `getExtension` from background.js over the faithful mime lookup: the
filename-suffix branch always yields a string, the fallback branch yields
whatever `getExtensionFromMimeJs` produces. -/
def getExtensionJs (filename : Option String) (mime : Option String) : JsLookup :=
  match extMatch (filename.getD "").data with
  | some suffix => .str (strLower ⟨suffix⟩)
  | none => getExtensionFromMimeJs mime

/-- Away from `Object.prototype` member names the faithful lookup and its
own-key restriction agree. -/
theorem getExtensionFromMimeJs_eq_str (mime : Option String)
    (h : ∀ m, mime = some m → m ∉ OBJECT_PROTOTYPE_MEMBERS) :
    getExtensionFromMimeJs mime = JsLookup.str (getExtensionFromMime mime) := by
  cases mime with
  | none => rfl
  | some m =>
    simp only [getExtensionFromMimeJs, mimeMapGet, getExtensionFromMime]
    split_ifs with a1 a2 a3 a4 a5 a6 a7 a8 a9 <;>
      first | rfl | exact absurd a9 (h m rfl)

/-- Claim C4 counterexample: the object literal in `getExtensionFromMime`
inherits `Object.prototype`, so the unmapped mime `"constructor"` reads
back the inherited constructor function — a truthy non-string — and the
function returns it instead of `".png"`. -/
theorem getExtension_proto_pollution :
    getExtensionJs none (some "constructor") = JsLookup.protoMember "constructor" ∧
    JsLookup.protoMember "constructor" ≠ JsLookup.str ".png" :=
  ⟨by decide, by decide⟩

/-- Claim C4 (amended: a mime that names an `Object.prototype` member is
excluded from the `".png"` default and from the always-a-string guarantee):
when the filename (possibly absent) has no trailing 2-to-5 word-character
dot-extension, `getExtension` falls back to the `map[mime] || ".png"`
lookup; the eight own rows map as listed, an absent mime or one that is
neither an own key nor an `Object.prototype` member name yields `".png"`,
an `Object.prototype` member name yields that inherited non-string member,
the function is still total and never raises, and whenever the result is a
string it begins with a dot. -/
theorem getExtension_mime_table_amended :
    (∀ (filename mime : Option String), ¬ HasTrailingDotExt (filename.getD "") →
      getExtensionJs filename mime = getExtensionFromMimeJs mime) ∧
    getExtensionFromMimeJs (some "image/jpeg") = JsLookup.str ".jpg" ∧
    getExtensionFromMimeJs (some "image/png") = JsLookup.str ".png" ∧
    getExtensionFromMimeJs (some "image/gif") = JsLookup.str ".gif" ∧
    getExtensionFromMimeJs (some "image/webp") = JsLookup.str ".webp" ∧
    getExtensionFromMimeJs (some "image/bmp") = JsLookup.str ".bmp" ∧
    getExtensionFromMimeJs (some "image/svg+xml") = JsLookup.str ".svg" ∧
    getExtensionFromMimeJs (some "image/x-icon") = JsLookup.str ".ico" ∧
    getExtensionFromMimeJs (some "image/tiff") = JsLookup.str ".tiff" ∧
    getExtensionFromMimeJs none = JsLookup.str ".png" ∧
    (∀ m : String, m ≠ "image/jpeg" → m ≠ "image/png" → m ≠ "image/gif" →
      m ≠ "image/webp" → m ≠ "image/bmp" → m ≠ "image/svg+xml" → m ≠ "image/x-icon" →
      m ≠ "image/tiff" → m ∉ OBJECT_PROTOTYPE_MEMBERS →
      getExtensionFromMimeJs (some m) = JsLookup.str ".png") ∧
    (∀ m ∈ OBJECT_PROTOTYPE_MEMBERS,
      getExtensionFromMimeJs (some m) = JsLookup.protoMember m) ∧
    (∀ (filename mime : Option String) (s : String),
      getExtensionJs filename mime = JsLookup.str s → s.data.head? = some '.') := by
  refine ⟨?_, by decide, by decide, by decide, by decide, by decide, by decide, by decide,
    by decide, by decide, ?_, by decide, ?_⟩
  · intro filename mime h
    unfold getExtensionJs
    rw [extMatch_eq_none_of_not_hasExt h]
  · intro m h1 h2 h3 h4 h5 h6 h7 h8 h9
    simp only [getExtensionFromMimeJs, mimeMapGet]
    split_ifs <;> simp_all
  · intro filename mime s h
    cases hm : extMatch (filename.getD "").data with
    | some suf =>
      have hh : JsLookup.str (strLower ⟨suf⟩) = JsLookup.str s := by
        rw [← h]
        unfold getExtensionJs
        rw [hm]
      obtain ⟨stem, t, _, hsuf, _, _, _⟩ := extMatch_some_split hm
      subst hsuf
      have hs : strLower ⟨'.' :: t⟩ = s := by simpa using hh
      rw [← hs]
      show some (lowerChar '.') = some '.'
      decide
    | none =>
      have hh : getExtensionFromMimeJs mime = JsLookup.str s := by
        rw [← h]
        unfold getExtensionJs
        rw [hm]
      cases mime with
      | none =>
        have hs : ".png" = s := by simpa [getExtensionFromMimeJs, mimeMapGet] using hh
        rw [← hs]
        decide
      | some m =>
        simp only [getExtensionFromMimeJs, mimeMapGet] at hh
        split_ifs at hh <;> simp at hh <;> subst hh <;> decide

/-- Claim C4 witness: a filename without an extension falls through to the
lookup, an ordinary unmapped mime yields `".png"`, and an
`Object.prototype` member name yields the inherited member. -/
theorem getExtension_mime_table_amended_witness :
    getExtensionJs (some "picture") (some "image/gif") = JsLookup.str ".gif" ∧
    getExtensionFromMimeJs (some "application/unknown") = JsLookup.str ".png" ∧
    getExtensionFromMimeJs (some "toString") = JsLookup.protoMember "toString" := by
  have hpic : ¬ HasTrailingDotExt ((some "picture").getD "") := fun h =>
    extMatch_ne_none_of_hasExt h (by decide)
  exact ⟨(getExtension_mime_table_amended.1 (some "picture") (some "image/gif") hpic).trans
      (by decide),
    getExtension_mime_table_amended.2.2.2.2.2.2.2.2.2.2.1 "application/unknown"
      (by decide) (by decide) (by decide) (by decide) (by decide) (by decide) (by decide)
      (by decide) (by decide),
    getExtension_mime_table_amended.2.2.2.2.2.2.2.2.2.2.2.1 "toString" (by decide)⟩

/-! ### The download listener ignores non-image downloads (C10) -/

/-- Claim C10: for every download whose mime type does not start with
`"image/"` and whose filename does not end, case-insensitively, with one of
the seven listed image extensions, the listener suggests no replacement and
leaves the history untouched, whatever the settings, the network and the
AI response do — so neither the sanitizer, the extension resolver nor the
history record operation can affect the outcome. -/
theorem non_image_downloads_pass_through (mime filename : String)
    (hm : strStartsWith mime "image/" = false)
    (hf : ∀ ext ∈ IMAGE_EXTENSIONS, strEndsWith (strLower filename) ext = false) :
    ∀ (enabled : Bool) (apiKey : String) (aiText : Option String) (now : Nat)
      (hist : List RenameEvent),
      onDeterminingFilename mime filename enabled apiKey aiText now hist =
        ⟨none, hist⟩ := by
  intro enabled apiKey aiText now hist
  have himg : isImageFile mime filename = false := by
    unfold isImageFile
    rw [hm]
    simp only [Bool.and_false, Bool.false_eq_true, if_false]
    rw [List.any_eq_false]
    intro ext hext
    rw [hf ext hext]
    simp
  unfold onDeterminingFilename
  rw [himg]
  simp

/-- Claim C10 witness: an HTML download is passed through unchanged even
with the extension enabled, an API key configured and an AI answer ready. -/
theorem non_image_downloads_pass_through_witness :
    onDeterminingFilename "text/html" "page.html" true "key" (some "a cat") 0 [] =
      ⟨none, []⟩ :=
  non_image_downloads_pass_through "text/html" "page.html" (by decide) (by decide)
    true "key" (some "a cat") 0 []

/-! ### The bounded rename history (C2, C7) -/

theorem logRename_take (o r : String) (now : Nat) (hist : List RenameEvent) :
    logRename o r now hist = ((⟨o, r, now⟩ : RenameEvent) :: hist).take 50 := by
  unfold logRename
  show (if 50 < ((⟨o, r, now⟩ : RenameEvent) :: hist).length
      then ((⟨o, r, now⟩ : RenameEvent) :: hist).take 50
      else (⟨o, r, now⟩ : RenameEvent) :: hist) =
    ((⟨o, r, now⟩ : RenameEvent) :: hist).take 50
  split_ifs with h
  · rfl
  · rw [List.take_of_length_le (by omega)]

theorem length_logRename (o r : String) (now : Nat) (hist : List RenameEvent)
    (h : hist.length ≤ 50) :
    (logRename o r now hist).length = min (hist.length + 1) 50 := by
  rw [logRename_take]
  simp only [List.length_take, List.length_cons]
  omega

theorem length_recordAll (calls : List (String × String × Nat)) :
    ∀ hist : List RenameEvent, hist.length ≤ 50 →
      (recordAll calls hist).length = min (hist.length + calls.length) 50 := by
  induction calls with
  | nil =>
    intro hist hh
    simp only [recordAll, List.foldl_nil, List.length_nil]
    omega
  | cons c cs ih =>
    intro hist hh
    show (recordAll cs (logRename c.1 c.2.1 c.2.2 hist)).length = _
    rw [ih _ (by rw [length_logRename _ _ _ _ hh]; omega),
      length_logRename _ _ _ _ hh]
    simp only [List.length_cons]
    omega

theorem head_recordAll (calls : List (String × String × Nat)) (hne : calls ≠ []) :
    ∀ hist : List RenameEvent, (recordAll calls hist).head? =
      calls.getLast?.map (fun c => (⟨c.1, c.2.1, c.2.2⟩ : RenameEvent)) := by
  induction calls with
  | nil => exact absurd rfl hne
  | cons c cs ih =>
    intro hist
    cases cs with
    | nil =>
      show (logRename c.1 c.2.1 c.2.2 hist).head? = _
      rw [logRename_take, show (50 : Nat) = 49 + 1 from rfl, List.take_succ_cons]
      simp
    | cons c2 cs2 =>
      show (recordAll (c2 :: cs2) (logRename c.1 c.2.1 c.2.2 hist)).head? = _
      rw [ih (by simp), List.getLast?_cons_cons]

/-- Claim C2: the rename history is bounded by 50 at all times — the empty
initial history satisfies the bound, every `logRename` preserves it, and
starting from an empty history 60 sequential record calls leave exactly 50
entries whose first element is the 60th recorded event. -/
theorem history_capacity :
    ([] : List RenameEvent).length ≤ 50 ∧
    (∀ (o r : String) (now : Nat) (hist : List RenameEvent), hist.length ≤ 50 →
      (logRename o r now hist).length ≤ 50) ∧
    (∀ calls : List (String × String × Nat), calls.length = 60 →
      (recordAll calls []).length = 50 ∧
      (recordAll calls []).head? =
        calls.getLast?.map (fun c => (⟨c.1, c.2.1, c.2.2⟩ : RenameEvent))) := by
  refine ⟨by simp, ?_, ?_⟩
  · intro o r now hist h
    rw [length_logRename o r now hist h]
    omega
  · intro calls hlen
    refine ⟨?_, head_recordAll calls (by intro hnil; rw [hnil] at hlen; simp at hlen) []⟩
    rw [length_recordAll calls [] (by simp), hlen]
    simp

/-- Claim C2 witness: 60 identical record calls starting from the empty
history leave 50 entries headed by the last recorded event. -/
theorem history_capacity_witness :
    (recordAll (List.replicate 60 ("a.png", "cat.png", 5)) []).length = 50 ∧
    (recordAll (List.replicate 60 ("a.png", "cat.png", 5)) []).head? =
      some ⟨"a.png", "cat.png", 5⟩ := by
  have h := history_capacity.2.2 (List.replicate 60 ("a.png", "cat.png", 5)) (by simp)
  exact ⟨h.1, h.2.trans (by decide)⟩

/-- The history is ordered most-recent-first by timestamp. -/
def mostRecentFirst (l : List RenameEvent) : Prop :=
  List.Chain' (fun a b => b.timestamp ≤ a.timestamp) l

/-- Claim C7: `logRename` builds an event stamped with the current time,
prepends it (it becomes the head of the list), truncates to the first 50
elements, and — provided the clock is non-decreasing, i.e. every stored
timestamp is at most `now` — preserves the most-recent-first ordering. -/
theorem logRename_prepends_and_sorted (o r : String) (now : Nat)
    (hist : List RenameEvent) (hsorted : mostRecentFirst hist)
    (hle : ∀ e ∈ hist, e.timestamp ≤ now) :
    (logRename o r now hist).head? = some ⟨o, r, now⟩ ∧
    logRename o r now hist = ((⟨o, r, now⟩ : RenameEvent) :: hist).take 50 ∧
    mostRecentFirst (logRename o r now hist) := by
  refine ⟨?_, logRename_take o r now hist, ?_⟩
  · rw [logRename_take, show (50 : Nat) = 49 + 1 from rfl, List.take_succ_cons]
    rfl
  · rw [logRename_take]
    have hchain : mostRecentFirst ((⟨o, r, now⟩ : RenameEvent) :: hist) := by
      rw [mostRecentFirst, List.chain'_cons']
      exact ⟨fun y hy => hle y (List.mem_of_mem_head? hy), hsorted⟩
    have hsplit : List.Chain' (fun a b : RenameEvent => b.timestamp ≤ a.timestamp)
        (((⟨o, r, now⟩ : RenameEvent) :: hist).take 50 ++
          ((⟨o, r, now⟩ : RenameEvent) :: hist).drop 50) := by
      rw [List.take_append_drop]
      exact hchain
    exact (List.chain'_append.mp hsplit).1

/-- Claim C7 witness: recording on a singleton history with a later clock
keeps the list sorted and puts the new event first. -/
theorem logRename_prepends_and_sorted_witness :
    (logRename "a.png" "cat.png" 10 [⟨"b.png", "dog.png", 5⟩]).head? =
      some ⟨"a.png", "cat.png", 10⟩ ∧
    mostRecentFirst (logRename "a.png" "cat.png" 10 [⟨"b.png", "dog.png", 5⟩]) := by
  have h := logRename_prepends_and_sorted "a.png" "cat.png" 10 [⟨"b.png", "dog.png", 5⟩]
    (List.chain'_singleton _) (by intro e he; simp at he; rw [he]; decide)
  exact ⟨h.1, h.2.2⟩

/-! ### Character-class facts used by the sanitizer invariant -/

theorem isOut_cases {c : Char} (h : isOut c = true) :
    (97 ≤ c.toNat ∧ c.toNat ≤ 122) ∨ (48 ≤ c.toNat ∧ c.toNat ≤ 57) ∨ c = '-' := by
  simpa only [isOut, Bool.or_eq_true, Bool.and_eq_true, decide_eq_true_eq, beq_iff_eq,
    or_assoc] using h

theorem isOut_intro {c : Char}
    (h : (97 ≤ c.toNat ∧ c.toNat ≤ 122) ∨ (48 ≤ c.toNat ∧ c.toNat ≤ 57) ∨ c = '-') :
    isOut c = true := by
  simpa only [isOut, Bool.or_eq_true, Bool.and_eq_true, decide_eq_true_eq, beq_iff_eq,
    or_assoc] using h

theorem isKeep_cases {c : Char} (h : isKeepChar c = true) :
    (97 ≤ c.toNat ∧ c.toNat ≤ 122) ∨ (65 ≤ c.toNat ∧ c.toNat ≤ 90) ∨
      (48 ≤ c.toNat ∧ c.toNat ≤ 57) ∨ c = '-' := by
  simpa only [isKeepChar, Bool.or_eq_true, Bool.and_eq_true, decide_eq_true_eq, beq_iff_eq,
    or_assoc] using h

theorem isQuoteChar_eq_false_of_isOut {c : Char} (h : isOut c = true) :
    isQuoteChar c = false := by
  cases hq : isQuoteChar c
  · rfl
  · simp only [isQuoteChar, Bool.or_eq_true, beq_iff_eq, or_assoc] at hq
    rcases hq with rfl | rfl | rfl <;> exact absurd h (by decide)

theorem isSpaceChar_eq_false_of_isOut {c : Char} (h : isOut c = true) :
    isSpaceChar c = false := by
  cases hq : isSpaceChar c
  · rfl
  · simp only [isSpaceChar, Bool.or_eq_true, beq_iff_eq, or_assoc] at hq
    rcases hq with rfl | rfl | rfl | rfl | rfl | rfl <;> exact absurd h (by decide)

theorem isSpaceOrUnderscore_eq_false_of_isOut {c : Char} (h : isOut c = true) :
    isSpaceOrUnderscore c = false := by
  rw [isSpaceOrUnderscore, isSpaceChar_eq_false_of_isOut h, Bool.false_or]
  cases hq : (c == '_')
  · rfl
  · rw [beq_iff_eq] at hq
    subst hq
    exact absurd h (by decide)

theorem dot_beq_eq_false_of_isOut {c : Char} (h : isOut c = true) : (c == '.') = false := by
  cases hq : (c == '.')
  · rfl
  · rw [beq_iff_eq] at hq
    subst hq
    exact absurd h (by decide)

theorem isKeep_of_isOut {c : Char} (h : isOut c = true) : isKeepChar c = true := by
  rcases isOut_cases h with h1 | h1 | h1
  · simpa only [isKeepChar, Bool.or_eq_true, Bool.and_eq_true, decide_eq_true_eq,
      beq_iff_eq, or_assoc] using Or.inl h1
  · simpa only [isKeepChar, Bool.or_eq_true, Bool.and_eq_true, decide_eq_true_eq,
      beq_iff_eq, or_assoc] using Or.inr (Or.inr (Or.inl h1))
  · subst h1; decide

theorem lowerChar_eq_self_of_isOut {c : Char} (h : isOut c = true) : lowerChar c = c := by
  rcases isOut_cases h with h1 | h1 | h1
  · unfold lowerChar; rw [if_neg (by omega)]
  · unfold lowerChar; rw [if_neg (by omega)]
  · subst h1; decide

theorem isOut_lowerChar {c : Char} (h : isKeepChar c = true) : isOut (lowerChar c) = true := by
  rcases isKeep_cases h with h1 | h1 | h1 | h1
  · rw [lowerChar_eq_self_of_isOut (isOut_intro (Or.inl h1))]
    exact isOut_intro (Or.inl h1)
  · unfold lowerChar
    rw [if_pos h1]
    obtain ⟨ha, hb⟩ := h1
    generalize c.toNat = n at ha hb ⊢
    interval_cases n <;> decide
  · rw [lowerChar_eq_self_of_isOut (isOut_intro (Or.inr (Or.inl h1)))]
    exact isOut_intro (Or.inr (Or.inl h1))
  · subst h1; decide

/-! ### The invariant satisfied by every sanitizer output -/

/-- The shape of the sanitizer's intermediate result after steps 6 and 7:
only `[a-z0-9-]` characters, no two adjacent hyphens, no hyphen at either
end, at most 60 characters. -/
def GoodStem (l : List Char) : Prop :=
  (∀ c ∈ l, isOut c = true) ∧
  List.Chain' (fun a b => ¬(isHyphen a = true ∧ isHyphen b = true)) l ∧
  (∀ c, l.head? = some c → isHyphen c = false) ∧
  (∀ c, l.getLast? = some c → isHyphen c = false) ∧
  l.length ≤ 60

/-- Abbreviation for the no-adjacent-hyphens chain condition. -/
def NoDouble (l : List Char) : Prop :=
  List.Chain' (fun a b => ¬(isHyphen a = true ∧ isHyphen b = true)) l

theorem head_replaceRuns_hyphen_true (l : List Char) :
    ∀ c, (replaceRuns isHyphen '-' true l).head? = some c → isHyphen c = false := by
  induction l with
  | nil => intro c h; simp [replaceRuns] at h
  | cons d rest ih =>
    intro c h
    cases hd : isHyphen d
    · rw [replaceRuns_cons_of_neg hd true, List.head?_cons, Option.some_inj] at h
      rw [← h]
      exact hd
    · rw [replaceRuns_cons_of_pos_true hd] at h
      exact ih c h

theorem noDouble_replaceRuns_hyphen (l : List Char) :
    ∀ b, NoDouble (replaceRuns isHyphen '-' b l) := by
  induction l with
  | nil => intro b; simp [replaceRuns, NoDouble]
  | cons d rest ih =>
    intro b
    cases hd : isHyphen d
    · rw [replaceRuns_cons_of_neg hd b, NoDouble, List.chain'_cons']
      exact ⟨fun y _ hc => absurd hc.1 (by simp [hd]), ih false⟩
    · cases b with
      | true =>
        rw [replaceRuns_cons_of_pos_true hd]
        exact ih true
      | false =>
        rw [replaceRuns_cons_of_pos_false hd, NoDouble, List.chain'_cons']
        refine ⟨fun y hy hc => ?_, ih true⟩
        exact absurd hc.2 (by simp [head_replaceRuns_hyphen_true rest y hy])

theorem replaceRuns_hyphen_self (l : List Char) :
    NoDouble l →
      replaceRuns isHyphen '-' false l = l ∧
      ((∀ c, l.head? = some c → isHyphen c = false) →
        replaceRuns isHyphen '-' true l = l) := by
  induction l with
  | nil => intro _; exact ⟨rfl, fun _ => rfl⟩
  | cons d rest ih =>
    intro hnd
    have htail : NoDouble rest := (List.chain'_cons'.mp hnd).2
    have hrel : ∀ y ∈ rest.head?, ¬(isHyphen d = true ∧ isHyphen y = true) :=
      (List.chain'_cons'.mp hnd).1
    cases hd : isHyphen d
    · have hfix : replaceRuns isHyphen '-' false rest = rest := (ih htail).1
      constructor
      · rw [replaceRuns_cons_of_neg hd false, hfix]
      · intro _
        rw [replaceRuns_cons_of_neg hd true, hfix]
    · constructor
      · rw [replaceRuns_cons_of_pos_false hd]
        have hd2 : d = '-' := by rwa [isHyphen, beq_iff_eq] at hd
        have hheadrest : ∀ c, rest.head? = some c → isHyphen c = false := by
          intro c hc
          cases hco : isHyphen c
          · rfl
          · exact absurd ⟨hd, hco⟩ (hrel c hc)
        rw [(ih htail).2 hheadrest, hd2]
      · intro hhead
        exact absurd (hhead d rfl) (by simp [hd])

theorem head?_dropWhile_not {p : Char → Bool} {l : List Char} :
    ∀ c, (l.dropWhile p).head? = some c → p c = false := by
  induction l with
  | nil => intro c h; simp at h
  | cons d rest ih =>
    intro c h
    cases hd : p d
    · simp [List.dropWhile_cons, hd] at h
      rw [← h]
      exact hd
    · simp only [List.dropWhile_cons, hd, if_true] at h
      exact ih c h

theorem dropTrailingHyphens_isPrefix (l : List Char) : dropTrailingHyphens l <+: l := by
  have h := List.reverse_prefix.mpr
    (show List.dropWhile isHyphen l.reverse <:+ l.reverse from List.dropWhile_suffix isHyphen)
  rw [List.reverse_reverse] at h
  exact h

theorem noDouble_of_isPrefix {l m : List Char} (h : m <+: l) (hd : NoDouble l) :
    NoDouble m := by
  obtain ⟨t, rfl⟩ := h
  exact (List.chain'_append.mp hd).1

theorem noDouble_of_isSuffix {l m : List Char} (h : m <:+ l) (hd : NoDouble l) :
    NoDouble m := by
  obtain ⟨t, rfl⟩ := h
  exact (List.chain'_append.mp hd).2.1

theorem head?_of_isPrefix {l m : List Char} (h : m <+: l) {c : Char}
    (hc : m.head? = some c) : l.head? = some c := by
  obtain ⟨t, rfl⟩ := h
  cases m with
  | nil => simp at hc
  | cons a rest => simpa using hc

theorem getLast?_dropTrailingHyphens {l : List Char} :
    ∀ c, (dropTrailingHyphens l).getLast? = some c → isHyphen c = false := by
  intro c h
  unfold dropTrailingHyphens at h
  rw [← List.head?_reverse, List.reverse_reverse] at h
  exact head?_dropWhile_not c h

theorem head?_trimHyphens {l : List Char} :
    ∀ c, (trimHyphens l).head? = some c → isHyphen c = false := by
  intro c h
  unfold trimHyphens at h
  exact head?_dropWhile_not c
    (head?_of_isPrefix (dropTrailingHyphens_isPrefix (l.dropWhile isHyphen)) h)

/-- Steps 4 through 8 of the sanitizer establish the output invariant,
whatever the earlier steps produced. -/
theorem goodStem_sanitizeCore (l : List Char) : GoodStem (sanitizeCore l) := by
  unfold sanitizeCore
  generalize hyphenateRuns (dropExtension (trimEnds (stripQuotes l))) = y0
  set x : List Char := (keepAlnumHyphen y0).map lowerChar with hx
  have hall_x : ∀ c ∈ x, isOut c = true := by
    intro c hc
    rw [hx] at hc
    obtain ⟨d, hd, rfl⟩ := List.mem_map.mp hc
    exact isOut_lowerChar (List.of_mem_filter hd)
  set y : List Char := collapseHyphens x with hy
  have hall_y : ∀ c ∈ y, isOut c = true := by
    intro c hc
    rcases mem_replaceRuns hc with rfl | hc2
    · decide
    · exact hall_x c hc2
  have hnd_y : NoDouble y := noDouble_replaceRuns_hyphen x false
  set z : List Char := trimHyphens y with hz
  have hz_sub : List.Sublist z y :=
    ((dropTrailingHyphens_isPrefix (y.dropWhile isHyphen)).sublist).trans
      (List.dropWhile_suffix isHyphen).sublist
  have hall_z : ∀ c ∈ z, isOut c = true := fun c hc => hall_y c (hz_sub.subset hc)
  have hnd_z : NoDouble z :=
    noDouble_of_isPrefix (dropTrailingHyphens_isPrefix (y.dropWhile isHyphen))
      (noDouble_of_isSuffix (List.dropWhile_suffix isHyphen) hnd_y)
  have hhead_z : ∀ c, z.head? = some c → isHyphen c = false := head?_trimHyphens
  have hlast_z : ∀ c, z.getLast? = some c → isHyphen c = false :=
    getLast?_dropTrailingHyphens
  show GoodStem (truncate60 z)
  unfold truncate60
  split_ifs with hlen
  · have hw_pre : z.take 60 <+: z := List.take_prefix 60 z
    have hdw_pre : dropTrailingHyphens (z.take 60) <+: z.take 60 :=
      dropTrailingHyphens_isPrefix (z.take 60)
    refine ⟨?_, ?_, ?_, getLast?_dropTrailingHyphens, ?_⟩
    · intro c hc
      exact hall_z c (hw_pre.sublist.subset (hdw_pre.sublist.subset hc))
    · exact noDouble_of_isPrefix hdw_pre (noDouble_of_isPrefix hw_pre hnd_z)
    · intro c hc
      exact hhead_z c (head?_of_isPrefix hw_pre (head?_of_isPrefix hdw_pre hc))
    · exact le_trans hdw_pre.length_le (List.length_take_le 60 z)
  · exact ⟨hall_z, hnd_z, hhead_z, hlast_z, by omega⟩

theorem extSuffixLen_eq_none_of_no_dot {lo hi : Nat} {l : List Char}
    (h : ∀ c ∈ l, (c == '.') = false) : extSuffixLen lo hi l = none := by
  unfold extSuffixLen
  rw [if_neg]
  intro hcond
  rw [Bool.and_eq_true, Bool.and_eq_true] at hcond
  obtain ⟨⟨_, _⟩, hdot⟩ := hcond
  rw [beq_iff_eq] at hdot
  have hmem : ('.' : Char) ∈ l := by
    have h1 := List.mem_of_mem_head? hdot
    have h2 := (List.dropWhile_suffix isWordChar).sublist.subset h1
    exact List.mem_reverse.mp h2
  have := h '.' hmem
  simp at this

/-- A list satisfying the output invariant is left unchanged by every one of
the eight sanitizer steps. -/
theorem sanitizeCore_fixpoint {l : List Char} (hg : GoodStem l) : sanitizeCore l = l := by
  obtain ⟨hall, hnd, hhead, hlast, hlen⟩ := hg
  have h1 : stripQuotes l = l := filter_eq_self_of_all (fun c hc => by
    rw [isQuoteChar_eq_false_of_isOut (hall c hc)]
    rfl)
  have h2 : trimEnds l = l := by
    unfold trimEnds
    rw [dropWhile_eq_self_of_head
        (fun c hc => isSpaceChar_eq_false_of_isOut (hall c (List.mem_of_mem_head? hc))),
      dropWhile_eq_self_of_head (fun c hc => isSpaceChar_eq_false_of_isOut
        (hall c (List.mem_reverse.mp (List.mem_of_mem_head? hc)))),
      List.reverse_reverse]
  have h3 : dropExtension l = l := by
    unfold dropExtension
    rw [extSuffixLen_eq_none_of_no_dot (fun c hc => dot_beq_eq_false_of_isOut (hall c hc))]
  have h4 : hyphenateRuns l = l :=
    replaceRuns_eq_self
      (fun c hc => isSpaceOrUnderscore_eq_false_of_isOut (hall c hc)) false
  have h5 : keepAlnumHyphen l = l :=
    filter_eq_self_of_all (fun c hc => isKeep_of_isOut (hall c hc))
  have h6 : l.map lowerChar = l :=
    map_eq_self_of_all (fun c hc => lowerChar_eq_self_of_isOut (hall c hc))
  have h7 : collapseHyphens l = l := (replaceRuns_hyphen_self l hnd).1
  have h8 : trimHyphens l = l := by
    unfold trimHyphens
    rw [dropWhile_eq_self_of_head hhead]
    unfold dropTrailingHyphens
    rw [dropWhile_eq_self_of_head (fun c hc => hlast c
      (by rw [List.head?_reverse] at hc; exact hc))]
    exact List.reverse_reverse l
  have h9 : truncate60 l = l := by
    unfold truncate60
    rw [if_neg (by omega)]
  unfold sanitizeCore
  rw [h1, h2, h3, h4, h5, h6, h7, h8, h9]

theorem data_mk (l : List Char) : (⟨l⟩ : String).data = l := rfl

theorem sanitizeFilename_eq (s : String) :
    sanitizeFilename s =
      if (sanitizeCore s.data).isEmpty then "unnamed-file" else ⟨sanitizeCore s.data⟩ := rfl

/-- Claim C1: for every input string, `sanitizeFilename` returns a string of
characters drawn from `[a-z0-9-]`, of length at most 60, never empty, and
returns exactly the literal `"unnamed-file"` whenever the eight
transformation steps reduce the input to the empty string. -/
theorem sanitize_safe (s : String) :
    (∀ c ∈ (sanitizeFilename s).data, isOut c = true) ∧
    (sanitizeFilename s).data.length ≤ 60 ∧
    sanitizeFilename s ≠ "" ∧
    (sanitizeCore s.data = [] → sanitizeFilename s = "unnamed-file") := by
  by_cases h : sanitizeCore s.data = []
  · have he : sanitizeFilename s = "unnamed-file" := by
      rw [sanitizeFilename_eq, if_pos (List.isEmpty_iff.mpr h)]
    rw [he]
    exact ⟨by decide, by decide, by decide, fun _ => rfl⟩
  · have he : sanitizeFilename s = ⟨sanitizeCore s.data⟩ := by
      rw [sanitizeFilename_eq, if_neg (fun hh => h (List.isEmpty_iff.mp hh))]
    obtain ⟨hall, _, _, _, hlen⟩ := goodStem_sanitizeCore s.data
    rw [he, data_mk]
    refine ⟨hall, hlen, ?_, fun hc => absurd hc h⟩
    intro hstr
    rw [show ("" : String) = ⟨[]⟩ from rfl] at hstr
    have hd := congrArg String.data hstr
    simp only [data_mk] at hd
    exact h hd

/-- Claim C1 witness: the empty input triggers the fallback, and a
punctuation-only input stays within the guaranteed bounds. -/
theorem sanitize_safe_witness :
    sanitizeFilename "" = "unnamed-file" ∧ (sanitizeFilename "!!!").data.length ≤ 60 :=
  ⟨(sanitize_safe "").2.2.2 (by decide), (sanitize_safe "!!!").2.1⟩

/-- Claim C9: `sanitizeFilename` is idempotent — every output, including the
`"unnamed-file"` fallback, is a fixed point of the transformation. -/
theorem sanitize_idempotent (s : String) :
    sanitizeFilename (sanitizeFilename s) = sanitizeFilename s := by
  by_cases h : sanitizeCore s.data = []
  · have he : sanitizeFilename s = "unnamed-file" := by
      rw [sanitizeFilename_eq, if_pos (List.isEmpty_iff.mpr h)]
    rw [he]
    decide
  · have he : sanitizeFilename s = ⟨sanitizeCore s.data⟩ := by
      rw [sanitizeFilename_eq, if_neg (fun hh => h (List.isEmpty_iff.mp hh))]
    have hfix : sanitizeCore (sanitizeCore s.data) = sanitizeCore s.data :=
      sanitizeCore_fixpoint (goodStem_sanitizeCore s.data)
    rw [he, sanitizeFilename_eq, data_mk, hfix,
      if_neg (fun hh => h (List.isEmpty_iff.mp hh))]

end AIFileNamer
